import Mathlib

/-!
Verification development for the smart load-balancer server
(`model_manager.py`, `performance_evaluator.py`, `smart_load_balancer_server.py`).

The Python code is shallowly embedded: dictionaries with insertion order
become association lists, Python floats become exact rationals, and the
one source of randomness (`random.choice` inside
`assign_models_to_clients`) becomes an explicit choice-function parameter
so that properties can be stated for every possible outcome.
-/

namespace LoadBalancer

/-- Hardware-specs record, as assembled by
`PerformanceEvaluator.get_system_specs` and as carried on the wire
(`HardwareSpecs` message): logical core count, frequency in GHz, RAM in
GB, GPU identifier string, GPU memory, OS descriptor and the derived
performance score. -/
structure HardwareSpecs where
  cpu_cores : Int
  cpu_frequency_ghz : Rat
  ram_gb : Rat
  gpu_info : String
  gpu_memory_gb : Rat
  os_info : String
  performance_score : Rat
  deriving Repr, DecidableEq, Inhabited

/-- Whether the character list `n` is a prefix of `h`
(character-by-character). Helper for the Python substring test. -/
def prefChars : List Char → List Char → Bool
  | [], _ => true
  | _ :: _, [] => false
  | a :: as, b :: bs => a = b && prefChars as bs

/-- Whether `n` occurs as a contiguous run inside `h`.  Helper for the
Python substring test. -/
def subChars (n : List Char) : List Char → Bool
  | [] => n.isEmpty
  | c :: rest => prefChars n (c :: rest) || subChars n rest

/-- Python's `needle in haystack` on strings: substring containment. -/
def pyContains (needle hay : String) : Bool :=
  subChars needle.toList hay.toList

/-- Python's `str.lower()` (ASCII case fold, which covers every pattern of
the GPU ladder). -/
def pyLower (s : String) : String :=
  String.mk (s.toList.map Char.toLower)

/-- GPU component of `PerformanceEvaluator._calculate_performance_score`
(the tiered case-insensitive substring ladder over `specs['gpu_info']`,
lines 206-248 of `performance_evaluator.py`). -/
def gpuScore (gpu_info_raw : String) : Rat :=
  let gpu_info := pyLower gpu_info_raw
  if pyContains "nvidia" gpu_info then
    if pyContains "rtx 40" gpu_info || pyContains "a100" gpu_info ||
        pyContains "h100" gpu_info then 30
    else if pyContains "rtx 30" gpu_info || pyContains "v100" gpu_info ||
        pyContains "a40" gpu_info then 28
    else if pyContains "rtx 20" gpu_info || pyContains "gtx 16" gpu_info ||
        pyContains "quadro" gpu_info then 25
    else if pyContains "rtx" gpu_info then 22
    else if pyContains "gtx" gpu_info then 18
    else 15
  else if pyContains "amd" gpu_info || pyContains "radeon" gpu_info then
    if pyContains "rx 7" gpu_info || pyContains "rx 6" gpu_info then 25
    else if pyContains "rx 5" gpu_info || pyContains "vega" gpu_info then 20
    else 15
  else if pyContains "intel" gpu_info then
    if pyContains "arc" gpu_info then 20
    else if pyContains "iris xe" gpu_info || pyContains "iris" gpu_info then 12
    else 8
  else if pyContains "apple" gpu_info || pyContains "m1" gpu_info ||
      pyContains "m2" gpu_info || pyContains "m3" gpu_info then
    if pyContains "m3" gpu_info then 28
    else if pyContains "m2" gpu_info then 25
    else if pyContains "m1" gpu_info then 22
    else 20
  else 5

/-- Round-half-even of a rational to an integer, the idealisation of
Python's `round` on the exact value. -/
def roundHalfEven (y : Rat) : Int :=
  if y - (⌊y⌋ : Rat) = 1 / 2 then
    (if ⌊y⌋ % 2 = 0 then ⌊y⌋ else ⌊y⌋ + 1)
  else ⌊y + 1 / 2⌋

/-- Python's `round(x, 1)`: round to one decimal place, ties to even. -/
def pyRound1 (x : Rat) : Rat :=
  (roundHalfEven (10 * x) : Rat) / 10

/-- `PerformanceEvaluator._calculate_performance_score`
(`performance_evaluator.py` lines 194-255), on the non-exception path:
`round(min(100, cpu_base + cpu_freq + ram_score + gpu_score), 1)`. -/
def calculate_performance_score (specs : HardwareSpecs) : Rat :=
  let cpu_base := min 20 ((specs.cpu_cores : Rat) * 1.5)
  let cpu_freq := min 20 (specs.cpu_frequency_ghz * 6)
  let cpu_score := cpu_base + cpu_freq
  let ram_score := min 30 (specs.ram_gb * 1.5)
  let gpu_score := gpuScore specs.gpu_info
  let total_score := cpu_score + ram_score + gpu_score
  pyRound1 (min 100 total_score)

/-- `ModelInfo.__post_init__` in `model_manager.py` (lines 25-47): the
fixed step function deriving the complexity rank from the parameter
count. -/
def complexity_of_parameters (parameters : Nat) : Nat :=
  if parameters ≥ 70000000000 then 10
  else if parameters ≥ 30000000000 then 9
  else if parameters ≥ 13000000000 then 8
  else if parameters ≥ 8000000000 then 7
  else if parameters ≥ 7000000000 then 6
  else if parameters ≥ 3000000000 then 5
  else if parameters ≥ 1000000000 then 4
  else if parameters ≥ 500000000 then 3
  else if parameters ≥ 100000000 then 2
  else 1

/-- The `ModelInfo` model descriptor of `model_manager.py` (lines 17-47).
The `supports_vision` field is Modelled from the spec: the server reads
`model_info.supports_vision` and the wire `ModelInfo` message declares
`supports_vision: bool` (spec section 6), but the `ModelInfo` dataclass in
`src/model_manager.py` and the `load_balancer.proto` declaration are not
part of the sources under `src/`; the flag is taken as a plain boolean
field per the spec's model-descriptor record. -/
structure ModelInfo where
  name : String
  parameters : Nat
  size_gb : Rat
  complexity_score : Nat
  supports_vision : Bool := false
  deriving Repr, DecidableEq

instance : Inhabited ModelInfo := ⟨⟨"", 0, 0, 0, false⟩⟩

/-- Constructing a `ModelInfo` the way the dataclass does: after
`__init__`, `__post_init__` replaces a supplied complexity score of `0`
by the step function of the parameter count. -/
def mkModelInfo (name : String) (parameters : Nat) (size_gb : Rat)
    (complexity_score : Nat) (supports_vision : Bool := false) : ModelInfo :=
  { name := name
    parameters := parameters
    size_gb := size_gb
    complexity_score :=
      if complexity_score = 0 then complexity_of_parameters parameters
      else complexity_score
    supports_vision := supports_vision }

/-- Per-client record stored in `SmartLoadBalancerServer.clients`
(`smart_load_balancer_server.py` lines 65-72). `last_seen` carries the
registration wall-clock time; `group` is written `None` and never
updated. -/
structure ClientInfo where
  hostname : String
  ip_address : String
  specs : HardwareSpecs
  last_seen : Rat
  assigned_model : Option String := none
  group : Option Nat := none
  deriving Repr, DecidableEq, Inhabited

/-- The worker registry: the Python `clients` dict in insertion order,
keyed by client id. -/
abbrev Registry := List (String × ClientInfo)

/-- The comparison passed to Python's
`sorted(clients.items(), key=score, reverse=True)`: a worker sorts no
later than another iff its performance score is at least as large. -/
def byScoreDesc (a b : String × ClientInfo) : Prop :=
  b.2.specs.performance_score ≤ a.2.specs.performance_score

instance : DecidableRel byScoreDesc := fun a b =>
  inferInstanceAs
    (Decidable (b.2.specs.performance_score ≤ a.2.specs.performance_score))

instance : IsTotal (String × ClientInfo) byScoreDesc :=
  ⟨fun a b => (le_total b.2.specs.performance_score a.2.specs.performance_score)⟩

instance : IsTrans (String × ClientInfo) byScoreDesc :=
  ⟨fun _ _ _ h1 h2 => le_trans h2 h1⟩

/-- `sorted(clients.items(), key=lambda x: x[1]['specs']['performance_score'],
reverse=True)` (`model_manager.py` lines 197-199).  Python's `sorted` is a
stable sort on the key; a stable insertion sort realises exactly the same
output list. -/
def sortWorkers (clients : Registry) : Registry :=
  List.insertionSort byScoreDesc clients

/-- The comparison for
`sorted(self.available_models, key=lambda x: x.complexity_score, reverse=True)`. -/
def byComplexityDesc (a b : ModelInfo) : Prop :=
  b.complexity_score ≤ a.complexity_score

instance : DecidableRel byComplexityDesc := fun a b =>
  inferInstanceAs (Decidable (b.complexity_score ≤ a.complexity_score))

instance : IsTotal ModelInfo byComplexityDesc :=
  ⟨fun a b => (le_total b.complexity_score a.complexity_score)⟩

instance : IsTrans ModelInfo byComplexityDesc :=
  ⟨fun _ _ _ h1 h2 => le_trans h2 h1⟩

/-- `model_manager.py` line 207: the catalog sorted by complexity score
descending (stable). -/
def sortModels (models : List ModelInfo) : List ModelInfo :=
  List.insertionSort byComplexityDesc models

/-- The slicing loop of `SmartModelManager._create_performance_groups`
(`model_manager.py` lines 251-259): group `group_idx` receives the slice
`sorted_clients[start:start+size]` with
`size = base + (1 if group_idx < extra else 0)`, projected to client ids.
Recursing over the group count with `extra` counting down reproduces the
slices as `take`/`drop`. -/
def groupsLoop (base : Nat) : Nat → Nat → List (String × ClientInfo) →
    List (List String)
  | 0, _, _ => []
  | n + 1, extra, cs =>
    let size := base + (if 0 < extra then 1 else 0)
    (cs.take size).map Prod.fst :: groupsLoop base n (extra - 1) (cs.drop size)

/-- `SmartModelManager._create_performance_groups`
(`model_manager.py` lines 233-261). -/
def create_performance_groups (sorted_clients : List (String × ClientInfo))
    (num_groups : Nat) : List (List String) :=
  if num_groups = 0 ∨ sorted_clients = [] then []
  else if sorted_clients.length ≤ num_groups then
    sorted_clients.map (fun p => [p.1])
  else
    groupsLoop (sorted_clients.length / num_groups) num_groups
      (sorted_clients.length % num_groups) sorted_clients

/-- The round-robin tail of `assign_models_to_clients`
(`model_manager.py` lines 225-228): remaining client `i` receives
`available_models[i % len(available_models)]`.  The index is always in
range because the function is only reached with a non-empty catalog; the
`default` fallback of `getD` is therefore never taken. -/
def roundRobin (available_models : List ModelInfo) :
    Nat → List String → List (String × String)
  | _, [] => []
  | i, cid :: rest =>
    (cid, (available_models.getD (i % available_models.length) default).name)
      :: roundRobin available_models (i + 1) rest

/-- A choice function standing for `random.choice`: any function that
picks an element of every non-empty list is a possible outcome of the
documented intra-group random selection. -/
def ValidPick (pick : List String → String) : Prop :=
  ∀ l : List String, l ≠ [] → pick l ∈ l

/-- `SmartModelManager.assign_models_to_clients`
(`model_manager.py` lines 177-231), with `random.choice` abstracted into
the `pick` parameter.  The Python loop
`for group_idx, client_group in enumerate(groups): if group_idx <
len(sorted_models): ...` pairs each group with the model of the same
index and skips every group whose index reaches the model count, which is
exactly `zipWith` on the two lists.  The resulting Python dict, whose
keys are written exactly once each, is kept as the association list of
its insertion events. -/
def assign_models_to_clients (pick : List String → String)
    (available_models : List ModelInfo) (clients : Registry) :
    List (String × String) :=
  if clients = [] then []
  else if available_models = [] then []
  else
    let sorted_clients := sortWorkers clients
    let num_models := available_models.length
    let groups := create_performance_groups sorted_clients num_models
    let sorted_models := sortModels available_models
    let selected := List.zipWith (fun g m => (pick g, m.name)) groups sorted_models
    let assigned_clients := selected.map Prod.fst
    let remaining := (sorted_clients.map Prod.fst).filter
      (fun cid => !(assigned_clients.contains cid))
    selected ++ roundRobin available_models 0 remaining

/-- `SmartModelManager.get_model_info` (`model_manager.py` lines
263-268): first catalog entry with the given name. -/
def get_model_info (available_models : List ModelInfo) (model_name : String) :
    Option ModelInfo :=
  available_models.find? (fun m => m.name = model_name)

/-- The maximum complexity rank over a catalog (`max(rank for m in C)`
in the spec's invariant, with `0` for the empty catalog). -/
def maxComplexity (available_models : List ModelInfo) : Nat :=
  (available_models.map (fun m => m.complexity_score)).foldr max 0

/-- The vision filter of `process_client_request`
(`smart_load_balancer_server.py` lines 290-295): look the assigned model
up in the catalog, read its `supports_vision` flag (`False` when the
lookup fails), and forward the caller's images only to vision-capable
models: `client_images = images if (supports_vision and images) else []`.
An unassigned worker carries `assigned_model = None`, which matches no
catalog entry. -/
def filteredImages (available_models : List ModelInfo)
    (assigned_model : Option String) (images : List String) : List String :=
  let model_info :=
    match assigned_model with
    | some name => get_model_info available_models name
    | none => none
  let supports_vision :=
    match model_info with
    | some mi => mi.supports_vision
    | none => false
  if supports_vision && !images.isEmpty then images else []

/-- The `AIRequest` message (`load_balancer.proto` via spec section 6),
as built by `process_client_request`
(`smart_load_balancer_server.py` lines 297-303). -/
structure AIRequest where
  request_id : String
  prompt : String
  assigned_model : String
  timestamp : Int
  images : List String
  deriving Repr, DecidableEq

/-- Building the per-worker request of `process_client_request`:
`assigned_model` is the worker's current assignment
(`client_info['assigned_model']`, the empty wire default standing for
`None`) and `images` passes through the vision filter. -/
def mkAIRequest (available_models : List ModelInfo) (request_id prompt : String)
    (timestamp : Int) (client_info : ClientInfo) (images : List String) :
    AIRequest :=
  { request_id := request_id
    prompt := prompt
    assigned_model := client_info.assigned_model.getD ""
    timestamp := timestamp
    images := filteredImages available_models client_info.assigned_model images }

/-- What a single worker RPC does during fan-out, seen from the
coordinator: the call either raises (connection failure or any other
exception inside `process_client_request`) or yields an `AIResponse` with
a success flag, text and processing time. -/
inductive WorkerOutcome where
  | rpcError : WorkerOutcome
  | reply (success : Bool) (response_text : String) (processing_time : Rat) :
      WorkerOutcome
  deriving Repr, DecidableEq

/-- Whether an outcome contributes to the `responses` list: only a reply
with `response.success` true is appended
(`smart_load_balancer_server.py` lines 313-322). -/
def WorkerOutcome.isSuccess : WorkerOutcome → Bool
  | .reply true _ _ => true
  | _ => false

/-- One entry of the `responses` list collected under `responses_lock`
(`smart_load_balancer_server.py` lines 316-322). -/
structure CollectedResponse where
  client_id : String
  model : Option String
  response : String
  processing_time : Rat
  performance_score : Rat
  deriving Repr, DecidableEq

/-- The collection step for one worker: `None` when the RPC failed or the
worker answered `success=False`. -/
def collectResponse (outcome : String → WorkerOutcome)
    (p : String × ClientInfo) : Option CollectedResponse :=
  match outcome p.1 with
  | .rpcError => none
  | .reply ok text t =>
    if ok then
      some { client_id := p.1
             model := p.2.assigned_model
             response := text
             processing_time := t
             performance_score := p.2.specs.performance_score }
    else none

/-- The early-return string of `process_distributed_query` for an empty
registry (`smart_load_balancer_server.py` line 252). -/
def noWorkersMessage : String :=
  "❌ No clients connected. Please connect clients first."

/-- The early-return string of `process_distributed_query` when no worker
succeeded (`smart_load_balancer_server.py` line 345). -/
def noSuccessfulResponsesMessage : String :=
  "❌ No successful responses from clients."

/-- The three return shapes of
`SmartLoadBalancerServer.process_distributed_query`: the `NO_WORKERS`
constant string, the `NO_SUCCESSFUL_RESPONSES` constant string, or the
summarization path `_create_intelligent_summary(responses)` applied to
the non-empty collected responses (whose rendering to a string is pure
presentation and is not inspected by any claim). -/
inductive DispatchResult where
  | noWorkers : DispatchResult
  | noSuccessfulResponses : DispatchResult
  | summary (responses : List CollectedResponse) : DispatchResult
  deriving Repr, DecidableEq

/-- `SmartLoadBalancerServer.process_distributed_query`
(`smart_load_balancer_server.py` lines 249-349) with the per-worker RPC
outcomes abstracted into `outcome`.  The threads append to `responses`
in completion order, which the scheduler determines; the registry
iteration order is used here, which no claim distinguishes (only
emptiness and membership of the collected list matter). -/
def process_distributed_query (outcome : String → WorkerOutcome)
    (clients : Registry) : DispatchResult :=
  if clients = [] then .noWorkers
  else
    let responses := clients.filterMap (collectResponse outcome)
    if responses = [] then .noSuccessfulResponses
    else .summary responses

/-- The registration request (`WorkerInfo` message, spec section 6), as
read by `SmartLoadBalancerServer.RegisterClient`. -/
structure RegisterRequest where
  client_id : String
  hostname : String
  ip_address : String
  specs : HardwareSpecs
  deriving Repr, DecidableEq

/-- The wire `ModelInfo` payload of the registration response
(`model_pb`): protobuf defaults when the assigned model is not in the
catalog. -/
structure ModelInfoPb where
  name : String := ""
  parameters : Nat := 0
  size_gb : Rat := 0
  complexity_score : Nat := 0
  supports_vision : Bool := false
  deriving Repr, DecidableEq

/-- The `RegistrationResponse` message
(`smart_load_balancer_server.py` lines 103-110). -/
structure RegistrationResponse where
  success : Bool
  message : String
  assigned_model : String
  model_info : ModelInfoPb
  total_clients : Nat
  client_group : Nat
  deriving Repr, DecidableEq

/-- Python dict update `self.clients[client_id] = info`: replace in place
when the key exists (keeping its position), append otherwise. -/
def upsert (clients : Registry) (k : String) (v : ClientInfo) : Registry :=
  if clients.any (fun p => p.1 = k) then
    clients.map (fun p => if p.1 = k then (k, v) else p)
  else clients ++ [(k, v)]

/-- The per-client assignment write-back loop
(`smart_load_balancer_server.py` lines 78-80): every registry entry whose
id appears in the fresh assignment map gets its `assigned_model`
replaced. -/
def applyAssignments (clients : Registry)
    (assignments : List (String × String)) : Registry :=
  clients.map (fun p =>
    match assignments.lookup p.1 with
    | some m => (p.1, { p.2 with assigned_model := some m })
    | none => p)

/-- `SmartLoadBalancerServer.RegisterClient`
(`smart_load_balancer_server.py` lines 49-110), non-exception path:
store the worker record, rebuild the assignment map over the whole
registry, write the assignments back, and answer with the registering
worker's model (falling back to `"llama3.2:3b"` when the map somehow
misses it) and the constant `client_group=1`. -/
def RegisterClient (pick : List String → String)
    (available_models : List ModelInfo) (now : Rat) (clients : Registry)
    (request : RegisterRequest) : Registry × RegistrationResponse :=
  let info : ClientInfo :=
    { hostname := request.hostname
      ip_address := request.ip_address
      specs := request.specs
      last_seen := now
      assigned_model := none
      group := none }
  let clients1 := upsert clients request.client_id info
  let assignments := assign_models_to_clients pick available_models clients1
  let clients2 := applyAssignments clients1 assignments
  let assigned_model := (assignments.lookup request.client_id).getD "llama3.2:3b"
  let model_pb : ModelInfoPb :=
    match get_model_info available_models assigned_model with
    | some mi =>
      { name := mi.name
        parameters := mi.parameters
        size_gb := mi.size_gb
        complexity_score := mi.complexity_score
        supports_vision := mi.supports_vision }
    | none => {}
  (clients2,
    { success := true
      message := "Registered successfully. Smart assignment: " ++ assigned_model
      assigned_model := assigned_model
      model_info := model_pb
      total_clients := clients2.length
      client_group := 1 })

/-! ### Concrete fixtures

Small concrete registries, catalogs and choice functions used to
instantiate the theorems. -/

/-- The default catalog's smallest model, `ModelInfo("llama3.2:1b",
1_000_000_000, 2.0, 0)` (`model_manager.py` line 171). -/
def smallModel : ModelInfo := mkModelInfo "llama3.2:1b" 1000000000 2 0

/-- The default catalog's largest model, `ModelInfo("llama3.1:8b",
8_000_000_000, 16.0, 0)` (`model_manager.py` line 173), taken
vision-capable for the vision-filter scenarios. -/
def largeModel : ModelInfo := mkModelInfo "llama3.1:8b" 8000000000 16 0 true

/-- A two-model catalog in the discovery order (ascending parameters). -/
def twoModelCatalog : List ModelInfo := [smallModel, largeModel]

/-- A worker record with the given performance score and neutral
remaining fields. -/
def clientWith (score : Rat) : ClientInfo :=
  { hostname := "host"
    ip_address := "10.0.0.1"
    specs :=
      { cpu_cores := 4
        cpu_frequency_ghz := 2
        ram_gb := 8
        gpu_info := "Unknown GPU"
        gpu_memory_gb := 0
        os_info := "Linux"
        performance_score := score }
    last_seen := 0 }

/-- Three registered workers with scores 90, 80 and 40 (the spec's
three-workers-two-models scenario). -/
def threeClientRegistry : Registry :=
  [("A", clientWith 90), ("B", clientWith 80), ("C", clientWith 40)]

/-- A single registered worker. -/
def oneClientRegistry : Registry := [("A", clientWith 90)]

/-- A worker holding the non-vision small model. -/
def visionTestClient : ClientInfo :=
  { clientWith 50 with assigned_model := some "llama3.2:1b" }

/-- An adversarial hardware-specs record with a negative core count. -/
def negativeSpecs : HardwareSpecs :=
  { cpu_cores := -100
    cpu_frequency_ghz := 0
    ram_gb := 0
    gpu_info := ""
    gpu_memory_gb := 0
    os_info := ""
    performance_score := 0 }

/-- A concrete outcome of `random.choice`: always the last element.  Any
function returning a member of its argument is a possible run of the
random selection. -/
def pickLast (l : List String) : String := l.getLast?.getD ""

/-- A one-model catalog. -/
def oneModelCatalog : List ModelInfo := [smallModel]

/-! ### Proof helpers for the step function -/

/-- Lookup along a threshold table: the rank of the first row whose
threshold the argument reaches, `1` past the end.  Proof device for the
nested conditional of `complexity_of_parameters` (to which it unfolds
definitionally on the table below). -/
def rankAux : List (Nat × Nat) → Nat → Nat
  | [], _ => 1
  | (t, r) :: rest, p => if p ≥ t then r else rankAux rest p

/-- The threshold rows of `ModelInfo.__post_init__`, highest first. -/
def rankTable : List (Nat × Nat) :=
  [(70000000000, 10), (30000000000, 9), (13000000000, 8), (8000000000, 7),
   (7000000000, 6), (3000000000, 5), (1000000000, 4), (500000000, 3),
   (100000000, 2)]

/-- `pickLast` is a legitimate outcome of `random.choice`: on a non-empty
list it returns a member. -/
theorem pickLast_valid : ValidPick pickLast := by
  intro l hl
  unfold pickLast
  rw [List.getLast?_eq_getLast l hl]
  exact List.getLast_mem hl

/-! ### Rounding helper lemmas -/

/-- Round-half-even of a nonnegative rational is nonnegative. -/
theorem roundHalfEven_nonneg {y : Rat} (h0 : 0 ≤ y) : 0 ≤ roundHalfEven y := by
  unfold roundHalfEven
  have hfl : (0 : Int) ≤ ⌊y⌋ := Int.floor_nonneg.mpr h0
  split_ifs with h1 h2
  · exact hfl
  · omega
  · exact Int.floor_nonneg.mpr (by linarith)

/-- Round-half-even never exceeds an integer bound of its argument. -/
theorem roundHalfEven_le {y : Rat} {B : Int} (hB : y ≤ (B : Rat)) :
    roundHalfEven y ≤ B := by
  unfold roundHalfEven
  have hfl : ⌊y⌋ ≤ B := by
    have := Int.floor_le_floor hB
    rwa [Int.floor_intCast] at this
  split_ifs with h1 h2
  · exact hfl
  · by_contra hcon
    have hEq : ⌊y⌋ = B := by omega
    rw [hEq] at h1
    have hy : y = (B : Rat) + 1 / 2 := by linarith
    rw [hy] at hB
    linarith
  · have hlt : y + 1 / 2 < ((B + 1 : Int) : Rat) := by push_cast; linarith
    have := Int.floor_lt.mpr hlt
    omega

/-- `round(x, 1)` of an integer value is that value. -/
theorem pyRound1_intCast (n : Int) : pyRound1 ((n : Rat)) = (n : Rat) := by
  unfold pyRound1 roundHalfEven
  have h10 : (10 : Rat) * (n : Rat) = ((10 * n : Int) : Rat) := by push_cast; ring
  rw [h10, Int.floor_intCast]
  rw [if_neg (by norm_num)]
  have hfl : ⌊((10 * n : Int) : Rat) + 1 / 2⌋ = 10 * n := by
    rw [Int.floor_eq_iff]
    constructor
    · norm_num
    · push_cast; linarith
  rw [hfl]
  push_cast
  ring

/-- `round(x, 1)` preserves nonnegativity. -/
theorem pyRound1_nonneg {x : Rat} (h : 0 ≤ x) : 0 ≤ pyRound1 x := by
  unfold pyRound1
  have h1 : (0 : Int) ≤ roundHalfEven (10 * x) :=
    roundHalfEven_nonneg (by linarith)
  have h2 : (0 : Rat) ≤ (roundHalfEven (10 * x) : Rat) := by exact_mod_cast h1
  linarith

/-- `round(x, 1)` preserves the bound 100. -/
theorem pyRound1_le_100 {x : Rat} (h : x ≤ 100) : pyRound1 x ≤ 100 := by
  unfold pyRound1
  have h1 : roundHalfEven (10 * x) ≤ (1000 : Int) :=
    roundHalfEven_le (by push_cast; linarith)
  have h2 : (roundHalfEven (10 * x) : Rat) ≤ 1000 := by exact_mod_cast h1
  linarith

/-- The GPU ladder only produces values between 5 and 30. -/
theorem gpuScore_bounds (s : String) : 5 ≤ gpuScore s ∧ gpuScore s ≤ 30 := by
  unfold gpuScore
  dsimp only
  split_ifs <;> norm_num

/-- The step function is literally the table lookup. -/
theorem complexity_eq_rankAux (p : Nat) :
    complexity_of_parameters p = rankAux rankTable p := rfl

/-- A table lookup is bounded by any bound on the table's ranks that also
bounds the default. -/
theorem rankAux_le (l : List (Nat × Nat)) (b : Nat) (hb : 1 ≤ b)
    (hl : ∀ e ∈ l, e.2 ≤ b) (p : Nat) : rankAux l p ≤ b := by
  induction l with
  | nil => simpa [rankAux] using hb
  | cons e rest ih =>
    obtain ⟨t, r⟩ := e
    simp only [rankAux]
    split_ifs
    · exact hl (t, r) (by simp)
    · exact ih (fun e he => hl e (by simp [he]))

/-- A table lookup over a rank-descending table is monotone in the
argument. -/
theorem rankAux_mono (l : List (Nat × Nat))
    (hl : l.Pairwise (fun a b => b.2 ≤ a.2)) (h1 : ∀ e ∈ l, 1 ≤ e.2)
    {p1 p2 : Nat} (h : p1 ≤ p2) : rankAux l p1 ≤ rankAux l p2 := by
  induction l with
  | nil => simp [rankAux]
  | cons e rest ih =>
    obtain ⟨t, r⟩ := e
    rw [List.pairwise_cons] at hl
    simp only [rankAux]
    split_ifs with hc1 hc2 hc2
    · exact le_refl r
    · exact absurd (le_trans hc1 h) hc2
    · exact rankAux_le rest r (h1 (t, r) (by simp))
        (fun e he => hl.1 e he) p1
    · exact ih hl.2 (fun e he => h1 e (by simp [he]))

/-! ### List helper lemmas -/

/-- Members of a `zipWith` come from members of the two lists. -/
theorem mem_zipWith_spec {α β γ : Type} {f : α → β → γ} {x : γ} :
    ∀ {as : List α} {bs : List β}, x ∈ List.zipWith f as bs →
      ∃ a b, a ∈ as ∧ b ∈ bs ∧ x = f a b := by
  intro as
  induction as with
  | nil => intro bs h; simp [List.zipWith] at h
  | cons a as ih =>
    intro bs h
    cases bs with
    | nil => simp [List.zipWith] at h
    | cons b bs =>
      rw [List.zipWith_cons_cons] at h
      rcases List.mem_cons.mp h with heq | hmem
      · exact ⟨a, b, by simp, by simp, heq⟩
      · obtain ⟨a', b', ha, hb, rfl⟩ := ih hmem
        exact ⟨a', b', by simp [ha], by simp [hb], rfl⟩

/-- The keys of the round-robin tail are exactly the remaining clients. -/
theorem roundRobin_map_fst (available_models : List ModelInfo) :
    ∀ (i : Nat) (ids : List String),
      (roundRobin available_models i ids).map Prod.fst = ids := by
  intro i ids
  induction ids generalizing i with
  | nil => rfl
  | cons cid rest ih => simp [roundRobin, ih]

/-- On a registry with distinct keys, `lookup` finds the stored record. -/
theorem lookup_of_mem_nodup {l : Registry} {a : String} {b : ClientInfo}
    (hnd : (l.map Prod.fst).Nodup) (hmem : (a, b) ∈ l) :
    l.lookup a = some b := by
  induction l with
  | nil => cases hmem
  | cons p t ih =>
    obtain ⟨k, v⟩ := p
    rw [List.map_cons, List.nodup_cons] at hnd
    rcases List.mem_cons.mp hmem with heq | hmem'
    · cases heq
      simp [List.lookup]
    · have hak : a ≠ k := by
        intro heq
        subst heq
        exact hnd.1 (List.mem_map.mpr ⟨(a, b), hmem', rfl⟩)
      have hbeq : (a == k) = false := by simp [hak]
      simp only [List.lookup, hbeq]
      exact ih hnd.2 hmem'

/-- Flattening singleton lists recovers the key projection. -/
theorem flatten_singletons (l : List (String × ClientInfo)) :
    (l.map (fun p => [p.1])).flatten = l.map Prod.fst := by
  induction l with
  | nil => rfl
  | cons p t ih => simp [ih]

/-- `foldr max 0` is invariant under permutation. -/
theorem foldr_max_perm {l l' : List Nat} (h : l.Perm l') :
    l.foldr max 0 = l'.foldr max 0 := by
  induction h with
  | nil => rfl
  | cons a _ ih => simp [List.foldr, ih]
  | swap a b l => simp only [List.foldr]; exact max_left_comm _ _ _
  | trans _ _ ih1 ih2 => exact ih1.trans ih2

/-- `foldr max 0` of a list bounded by `b` is at most `b`. -/
theorem foldr_max_le {l : List Nat} {b : Nat} (h : ∀ x ∈ l, x ≤ b) :
    l.foldr max 0 ≤ b := by
  induction l with
  | nil => simp
  | cons a t ih =>
    simp only [List.foldr]
    exact max_le (h a (by simp)) (ih fun x hx => h x (by simp [hx]))

/-- The maximum complexity is invariant under catalog permutation. -/
theorem maxComplexity_perm {l l' : List ModelInfo} (h : l.Perm l') :
    maxComplexity l = maxComplexity l' :=
  foldr_max_perm (h.map _)

/-- The head of the complexity-sorted catalog attains the maximum
complexity rank. -/
theorem sortModels_headI_complexity (models : List ModelInfo)
    (hm : models ≠ []) :
    (sortModels models).headI.complexity_score = maxComplexity models := by
  have hperm : (sortModels models).Perm models := List.perm_insertionSort _ _
  rw [← maxComplexity_perm hperm]
  have hsorted : (sortModels models).Sorted byComplexityDesc :=
    List.sorted_insertionSort _ _
  obtain ⟨m0, rest, heq⟩ : ∃ m0 rest, sortModels models = m0 :: rest := by
    cases hs : sortModels models with
    | nil =>
      rw [hs] at hperm
      exact absurd hperm.symm.eq_nil hm
    | cons a t => exact ⟨a, t, rfl⟩
  rw [heq]
  have hrest : ∀ x ∈ rest, x.complexity_score ≤ m0.complexity_score := by
    rw [heq] at hsorted
    intro x hx
    exact (List.pairwise_cons.mp hsorted).1 x hx
  simp only [List.headI, maxComplexity, List.map_cons, List.foldr]
  refine (max_eq_left (foldr_max_le ?_)).symm
  intro x hx
  obtain ⟨y, hy, rfl⟩ := List.mem_map.mp hx
  exact hrest y hy

/-! ### Grouping lemmas -/

/-- The slicing loop produces one group per requested group. -/
theorem groupsLoop_length {base : Nat} :
    ∀ (n extra : Nat) (cs : List (String × ClientInfo)),
      (groupsLoop base n extra cs).length = n := by
  intro n
  induction n with
  | zero => intro extra cs; rfl
  | succ n ih => intro extra cs; simp [groupsLoop, ih]

/-- Every member of a produced group is a key of the input list. -/
theorem groupsLoop_mem {base : Nat} :
    ∀ (n extra : Nat) (cs : List (String × ClientInfo))
      (g : List String), g ∈ groupsLoop base n extra cs →
      ∀ x ∈ g, ∃ c, (x, c) ∈ cs := by
  intro n
  induction n with
  | zero => intro extra cs g hg; cases hg
  | succ n ih =>
    intro extra cs g hg x hx
    simp only [groupsLoop] at hg
    rcases List.mem_cons.mp hg with heq | hmem
    · subst heq
      obtain ⟨p, hp, rfl⟩ := List.mem_map.mp hx
      exact ⟨p.2, List.take_subset _ _ hp⟩
    · obtain ⟨c, hc⟩ := ih _ _ g hmem x hx
      exact ⟨c, List.drop_subset _ _ hc⟩

/-- Under the slicing invariant the produced groups have the documented
sizes: `base + 1` for the first `extra` groups and `base` afterwards. -/
theorem groupsLoop_get_length {base : Nat} :
    ∀ (n extra : Nat) (cs : List (String × ClientInfo)), extra ≤ n →
      cs.length = base * n + extra →
      ∀ (i : Nat) (hi : i < (groupsLoop base n extra cs).length),
        ((groupsLoop base n extra cs).get ⟨i, hi⟩).length =
          if i < extra then base + 1 else base := by
  intro n
  induction n with
  | zero =>
    intro extra cs _ _ i hi
    rw [groupsLoop_length] at hi
    exact absurd hi (Nat.not_lt_zero i)
  | succ n ih =>
    intro extra cs hext hlen i hi
    have hmul : base * (n + 1) = base * n + base := Nat.mul_succ base n
    have hdrop : (cs.drop (base + if 0 < extra then 1 else 0)).length =
        base * n + (extra - 1) := by
      rw [List.length_drop, hlen, hmul]
      rcases Nat.eq_zero_or_pos extra with h0 | hpos
      · subst h0
        rw [if_neg (Nat.lt_irrefl 0)]
        omega
      · rw [if_pos hpos]
        omega
    cases i with
    | zero =>
      simp only [groupsLoop, List.get, List.length_map, List.length_take]
      rcases Nat.eq_zero_or_pos extra with h0 | hpos
      · subst h0
        rw [if_neg (Nat.lt_irrefl 0), if_neg (Nat.lt_irrefl 0),
          Nat.min_def, if_pos (by omega)]
        omega
      · rw [if_pos hpos, if_pos hpos, Nat.min_def, if_pos (by omega)]
    | succ i' =>
      have hi' : i' < (groupsLoop base n (extra - 1)
          (cs.drop (base + if 0 < extra then 1 else 0))).length := by
        rw [groupsLoop_length]
        rw [groupsLoop_length] at hi
        omega
      have hrec := ih (extra - 1) (cs.drop (base + if 0 < extra then 1 else 0))
        (by omega) hdrop i' hi'
      simp only [groupsLoop, List.get]
      rw [hrec]
      rcases Nat.eq_zero_or_pos extra with h0 | hpos
      · subst h0
        simp
      · by_cases hcase : i' < extra - 1
        · rw [if_pos hcase, if_pos (by omega)]
        · rw [if_neg hcase, if_neg (by omega)]

/-- Under the slicing invariant no produced group is empty (the Python
`random.choice` would otherwise raise). -/
theorem groupsLoop_ne_nil {base : Nat} (hbase : 0 < base) :
    ∀ (n extra : Nat) (cs : List (String × ClientInfo)), extra ≤ n →
      cs.length = base * n + extra →
      ∀ g ∈ groupsLoop base n extra cs, g ≠ [] := by
  intro n extra cs hext hlen g hg
  obtain ⟨i, rfl⟩ := List.mem_iff_get.mp hg
  intro hnil
  have := groupsLoop_get_length n extra cs hext hlen i.1 i.2
  rw [hnil] at this
  simp only [List.length_nil] at this
  split_ifs at this <;> omega

/-- Under the slicing invariant the groups concatenate back to the sorted
key sequence (the partition covers every worker, in order). -/
theorem groupsLoop_flatten {base : Nat} :
    ∀ (n extra : Nat) (cs : List (String × ClientInfo)), extra ≤ n →
      cs.length = base * n + extra →
      (groupsLoop base n extra cs).flatten = cs.map Prod.fst := by
  intro n
  induction n with
  | zero =>
    intro extra cs hext hlen
    have : cs = [] := by
      rw [← List.length_eq_zero, hlen]
      omega
    subst this
    rfl
  | succ n ih =>
    intro extra cs hext hlen
    have hmul : base * (n + 1) = base * n + base := Nat.mul_succ base n
    have hdrop : (cs.drop (base + if 0 < extra then 1 else 0)).length =
        base * n + (extra - 1) := by
      rw [List.length_drop, hlen, hmul]
      rcases Nat.eq_zero_or_pos extra with h0 | hpos
      · subst h0
        rw [if_neg (Nat.lt_irrefl 0)]
        omega
      · rw [if_pos hpos]
        omega
    simp only [groupsLoop, List.flatten_cons]
    rw [ih (extra - 1) _ (by omega) hdrop]
    rw [← List.map_append, List.take_append_drop]

/-- Two members of different groups come from registry entries whose
scores respect the group order. -/
theorem groupsLoop_pairwise {base : Nat} :
    ∀ (n extra : Nat) (cs : List (String × ClientInfo)),
      cs.Pairwise byScoreDesc →
      ∀ (i j : Nat) (hi : i < (groupsLoop base n extra cs).length)
        (hj : j < (groupsLoop base n extra cs).length), i < j →
        ∀ x ∈ (groupsLoop base n extra cs).get ⟨i, hi⟩,
        ∀ y ∈ (groupsLoop base n extra cs).get ⟨j, hj⟩,
        ∃ cx cy, (x, cx) ∈ cs ∧ (y, cy) ∈ cs ∧ byScoreDesc (x, cx) (y, cy) := by
  intro n
  induction n with
  | zero =>
    intro extra cs _ i j hi _ _ _ _ _ _
    rw [groupsLoop_length] at hi
    exact absurd hi (Nat.not_lt_zero i)
  | succ n ih =>
    intro extra cs hpw i j hi hj hij x hx y hy
    have hsplit := List.pairwise_append.mp
      (by
        rw [List.take_append_drop
          (base + if 0 < extra then 1 else 0) cs]
        exact hpw)
    cases i with
    | zero =>
      cases j with
      | zero => exact absurd hij (Nat.lt_irrefl 0)
      | succ j' =>
        simp only [groupsLoop, List.get] at hx hy
        obtain ⟨px, hpx, rfl⟩ := List.mem_map.mp hx
        obtain ⟨cy, hcy⟩ := groupsLoop_mem n (extra - 1)
          (cs.drop (base + if 0 < extra then 1 else 0)) _
          (List.get_mem _ _ _) y hy
        refine ⟨px.2, cy, List.take_subset _ _ (by simpa using hpx),
          List.drop_subset _ _ hcy, ?_⟩
        have := hsplit.2.2 px hpx (y, cy) hcy
        simpa using this
    | succ i' =>
      cases j with
      | zero => exact absurd hij (Nat.not_lt_zero i'.succ)
      | succ j' =>
        simp only [groupsLoop, List.get] at hx hy
        obtain ⟨cx, cy, hcx, hcy, hrel⟩ :=
          ih (extra - 1) _ hsplit.2.1 i' j' _ _ (by omega) x hx y hy
        exact ⟨cx, cy, List.drop_subset _ _ hcx,
          List.drop_subset _ _ hcy, hrel⟩

/-- Branch-free description of `create_performance_groups`: for a
non-empty sorted registry and a positive group count, the groups cover
the sorted keys, are all non-empty, and number `min G N`. -/
theorem create_groups_spec (sorted : List (String × ClientInfo)) (G : Nat)
    (hG : G ≠ 0) (hs : sorted ≠ []) :
    (create_performance_groups sorted G).flatten = sorted.map Prod.fst ∧
    (∀ g ∈ create_performance_groups sorted G, g ≠ []) ∧
    (create_performance_groups sorted G).length = min G sorted.length := by
  unfold create_performance_groups
  rw [if_neg (by push_neg; exact ⟨hG, hs⟩)]
  split_ifs with hle
  · refine ⟨flatten_singletons sorted, ?_, ?_⟩
    · intro g hg
      obtain ⟨p, _, rfl⟩ := List.mem_map.mp hg
      simp
    · rw [List.length_map]
      omega
  · push_neg at hle
    have hGpos : 0 < G := Nat.pos_of_ne_zero hG
    have hbase : 0 < sorted.length / G := Nat.div_pos (le_of_lt hle) hGpos
    have hinv : sorted.length = sorted.length / G * G + sorted.length % G := by
      have h := Nat.div_add_mod sorted.length G
      rw [Nat.mul_comm] at h
      omega
    have hext : sorted.length % G ≤ G := le_of_lt (Nat.mod_lt _ hGpos)
    refine ⟨groupsLoop_flatten G (sorted.length % G) sorted hext hinv, ?_, ?_⟩
    · exact groupsLoop_ne_nil hbase G (sorted.length % G) sorted hext hinv
    · rw [groupsLoop_length]
      omega

/-- With a nonzero remainder, `base + 1` is the ceiling of the division. -/
theorem ceil_div_of_mod_pos {N G : Nat} (hG : 0 < G) (hmod : 0 < N % G) :
    (N + G - 1) / G = N / G + 1 := by
  have hdm := Nat.div_add_mod N G
  have hmlt : N % G < G := Nat.mod_lt _ hG
  have hrw : N + G - 1 = G * (N / G + 1) + (N % G - 1) := by
    rw [Nat.mul_succ]
    omega
  rw [hrw, Nat.mul_add_div hG]
  have hz : (N % G - 1) / G = 0 := Nat.div_eq_of_lt (by omega)
  rw [hz]

/-- The keys selected by the per-group random picks are distinct when the
groups are non-empty and pairwise disjoint. -/
theorem zipWith_pick_nodup (pick : List String → String)
    (hpick : ValidPick pick) :
    ∀ (groups : List (List String)) (ms : List ModelInfo),
      (∀ g ∈ groups, g ≠ []) → groups.Pairwise List.Disjoint →
      ((List.zipWith (fun g m => (pick g, m.name)) groups ms).map
          Prod.fst).Nodup := by
  intro groups
  induction groups with
  | nil => intro ms _ _; simp
  | cons g gs ih =>
    intro ms hne hdisj
    cases ms with
    | nil => simp
    | cons m ms' =>
      rw [List.zipWith_cons_cons, List.map_cons, List.nodup_cons]
      rw [List.pairwise_cons] at hdisj
      constructor
      · intro hmem
        obtain ⟨x, hx, hxeq⟩ := List.mem_map.mp hmem
        obtain ⟨g', m', hg', _, rfl⟩ := mem_zipWith_spec hx
        have hpg : pick g ∈ g := hpick g (hne g (by simp))
        have hpg' : pick g' ∈ g' := hpick g' (hne g' (by simp [hg']))
        simp only at hxeq
        rw [hxeq] at hpg'
        exact hdisj.1 g' hg' hpg hpg'
      · exact ih ms' (fun g hg => hne g (by simp [hg])) hdisj.2

/-- The key sequence of the assignment map: the per-group selections
followed by the filtered remaining clients. -/
theorem assign_keys (pick : List String → String) (models : List ModelInfo)
    (clients : Registry) (hc : clients ≠ []) (hm : models ≠ []) :
    (assign_models_to_clients pick models clients).map Prod.fst =
      (List.zipWith (fun g m => (pick g, m.name))
          (create_performance_groups (sortWorkers clients) models.length)
          (sortModels models)).map Prod.fst ++
      ((sortWorkers clients).map Prod.fst).filter
        (fun cid => !(((List.zipWith (fun g m => (pick g, m.name))
            (create_performance_groups (sortWorkers clients) models.length)
            (sortModels models)).map Prod.fst).contains cid)) := by
  unfold assign_models_to_clients
  rw [if_neg hc, if_neg hm]
  dsimp only
  rw [List.map_append, roundRobin_map_fst]

/-! ### Claim theorems -/

/-- A worker contributes to the collected responses exactly when its RPC
succeeded with a true success flag. -/
theorem collectResponse_eq_none (outcome : String → WorkerOutcome)
    (p : String × ClientInfo) :
    collectResponse outcome p = none ↔ (outcome p.1).isSuccess = false := by
  unfold collectResponse WorkerOutcome.isSuccess
  cases outcome p.1 with
  | rpcError => simp
  | reply ok text t => cases ok <;> simp

/-- C9: with a non-empty registry, if every worker fails (RPC error or
`success=false`) the dispatch engine returns the constant
`NO_SUCCESSFUL_RESPONSES` result, and if any worker succeeds it proceeds
to summarization over a non-empty response list instead. -/
theorem c9_dispatch_failure_semantics (outcome : String → WorkerOutcome)
    (clients : Registry) (hc : clients ≠ []) :
    ((∀ p ∈ clients, (outcome p.1).isSuccess = false) →
        process_distributed_query outcome clients =
          DispatchResult.noSuccessfulResponses) ∧
    (∀ p ∈ clients, (outcome p.1).isSuccess = true →
        ∃ rs, process_distributed_query outcome clients =
          DispatchResult.summary rs ∧ rs ≠ []) := by
  unfold process_distributed_query
  rw [if_neg hc]
  dsimp only
  constructor
  · intro hall
    have hnil : clients.filterMap (collectResponse outcome) = [] := by
      rw [List.filterMap_eq_nil]
      intro a ha
      exact (collectResponse_eq_none outcome a).mpr (hall a ha)
    rw [hnil, if_pos rfl]
  · intro p hp hsucc
    have hne : clients.filterMap (collectResponse outcome) ≠ [] := by
      intro hnil
      rw [List.filterMap_eq_nil] at hnil
      have hnone := hnil p hp
      rw [collectResponse_eq_none, hsucc] at hnone
      cases hnone
    refine ⟨clients.filterMap (collectResponse outcome), ?_, hne⟩
    rw [if_neg hne]

/-- Witness for C9: all three workers erroring yields the constant
result, one success yields a summary. -/
theorem c9_dispatch_failure_semantics_witness :
    (process_distributed_query (fun _ => WorkerOutcome.rpcError)
        threeClientRegistry = DispatchResult.noSuccessfulResponses) ∧
    (∃ rs, process_distributed_query
        (fun _ => WorkerOutcome.reply true "ok" 1) threeClientRegistry =
          DispatchResult.summary rs ∧ rs ≠ []) :=
  ⟨(c9_dispatch_failure_semantics (fun _ => WorkerOutcome.rpcError)
      threeClientRegistry (by decide)).1 (fun p _ => rfl),
    (c9_dispatch_failure_semantics (fun _ => WorkerOutcome.reply true "ok" 1)
      threeClientRegistry (by decide)).2 ("A", clientWith 90) (by decide) rfl⟩

/-- C1 is refuted: with three workers (scores 90, 80, 40) and two models,
the top group is the pair of the two strongest workers; for the random
outcome that selects the second of them, the highest-scoring worker "A"
falls to the round-robin tail and receives the 1B model of rank 4, not
the catalog's maximum rank 7. -/
theorem c1_counterexample :
    ValidPick pickLast ∧
    threeClientRegistry.map Prod.fst = ["A", "B", "C"] ∧
    threeClientRegistry.map (fun p => p.2.specs.performance_score) =
      [90, 80, 40] ∧
    (sortWorkers threeClientRegistry).headI.1 = "A" ∧
    (assign_models_to_clients pickLast twoModelCatalog
        threeClientRegistry).lookup "A" = some "llama3.2:1b" ∧
    get_model_info twoModelCatalog "llama3.2:1b" = some smallModel ∧
    smallModel.complexity_score = 4 ∧
    maxComplexity twoModelCatalog = 7 :=
  ⟨pickLast_valid, by decide, by decide, by decide, by decide, by decide,
    by decide, by decide⟩

/-- C1 amended: when the registry is no larger than the catalog (so each
worker forms its own group), the highest-scoring worker — the head of the
sorted order — is assigned the head of the complexity-sorted catalog,
whose complexity rank is the maximum over the catalog; with more workers
than models only the randomly selected member of the top group receives
that model. -/
theorem c1_amended (pick : List String → String) (models : List ModelInfo)
    (clients : Registry) (hpick : ValidPick pick) (hc : clients ≠ [])
    (hm : models ≠ []) (hN : clients.length ≤ models.length) :
    (assign_models_to_clients pick models clients).lookup
        ((sortWorkers clients).headI.1) =
      some ((sortModels models).headI.name) ∧
    (sortModels models).headI.complexity_score = maxComplexity models := by
  refine ⟨?_, sortModels_headI_complexity models hm⟩
  have hcperm : (sortWorkers clients).Perm clients := List.perm_insertionSort _ _
  have hmperm : (sortModels models).Perm models := List.perm_insertionSort _ _
  obtain ⟨s0, srest, hs⟩ : ∃ s0 srest, sortWorkers clients = s0 :: srest := by
    cases h : sortWorkers clients with
    | nil =>
      rw [h] at hcperm
      exact absurd hcperm.symm.eq_nil hc
    | cons a t => exact ⟨a, t, rfl⟩
  obtain ⟨m0, mrest, hmm⟩ : ∃ m0 mrest, sortModels models = m0 :: mrest := by
    cases h : sortModels models with
    | nil =>
      rw [h] at hmperm
      exact absurd hmperm.symm.eq_nil hm
    | cons a t => exact ⟨a, t, rfl⟩
  unfold assign_models_to_clients
  rw [if_neg hc, if_neg hm]
  dsimp only
  have hlen : (sortWorkers clients).length = clients.length := hcperm.length_eq
  have hgroups : create_performance_groups (sortWorkers clients)
      models.length = (sortWorkers clients).map (fun p => [p.1]) := by
    unfold create_performance_groups
    rw [if_neg (by
        push_neg
        refine ⟨(List.length_pos.mpr hm).ne', ?_⟩
        rw [hs]
        simp),
      if_pos (by rw [hlen]; exact hN)]
  rw [hgroups, hs, hmm]
  have hpick0 : pick [s0.1] = s0.1 := by
    have h := hpick [s0.1] (by simp)
    simpa using h
  simp only [List.map_cons, List.zipWith_cons_cons, List.headI,
    List.cons_append]
  rw [hpick0]
  simp [List.lookup]

/-- Witness for C1 amended: one worker, one model. -/
theorem c1_amended_witness :
    (assign_models_to_clients pickLast oneModelCatalog
        oneClientRegistry).lookup ((sortWorkers oneClientRegistry).headI.1) =
      some ((sortModels oneModelCatalog).headI.name) ∧
    (sortModels oneModelCatalog).headI.complexity_score =
      maxComplexity oneModelCatalog :=
  c1_amended pickLast oneModelCatalog oneClientRegistry pickLast_valid
    (by decide) (by decide) (by decide)

/-- C4: for every non-empty registry with distinct worker ids and every
non-empty catalog, and every outcome of the random selection, the
assignment map's key set is exactly the registry's id set and each id is
assigned exactly once. -/
theorem c4_assignment_domain (pick : List String → String)
    (models : List ModelInfo) (clients : Registry) (hpick : ValidPick pick)
    (hc : clients ≠ []) (hm : models ≠ [])
    (hnd : (clients.map Prod.fst).Nodup) :
    ((assign_models_to_clients pick models clients).map Prod.fst).toFinset =
      (clients.map Prod.fst).toFinset ∧
    ((assign_models_to_clients pick models clients).map Prod.fst).Nodup := by
  have hcperm : (sortWorkers clients).Perm clients := List.perm_insertionSort _ _
  have hidperm : ((sortWorkers clients).map Prod.fst).Perm
      (clients.map Prod.fst) := hcperm.map _
  have hndsorted : ((sortWorkers clients).map Prod.fst).Nodup :=
    hidperm.nodup_iff.mpr hnd
  have hsne : sortWorkers clients ≠ [] := by
    intro h
    rw [h] at hcperm
    exact hc hcperm.symm.eq_nil
  obtain ⟨hflat, hgne, _⟩ := create_groups_spec (sortWorkers clients)
    models.length (List.length_pos.mpr hm).ne' hsne
  rw [assign_keys pick models clients hc hm]
  set selKeys := (List.zipWith (fun g m => (pick g, m.name))
      (create_performance_groups (sortWorkers clients) models.length)
      (sortModels models)).map Prod.fst with hselKeys
  set rem := ((sortWorkers clients).map Prod.fst).filter
    (fun cid => !(selKeys.contains cid)) with hrem
  have hsub : ∀ a ∈ selKeys, a ∈ (sortWorkers clients).map Prod.fst := by
    intro a ha
    rw [hselKeys] at ha
    obtain ⟨x, hx, rfl⟩ := List.mem_map.mp ha
    obtain ⟨g, m, hg, _, rfl⟩ := mem_zipWith_spec hx
    have hp : pick g ∈ g := hpick g (hgne g hg)
    rw [← hflat]
    exact List.mem_flatten.mpr ⟨g, hg, hp⟩
  have hnodupSel : selKeys.Nodup := by
    rw [hselKeys]
    refine zipWith_pick_nodup pick hpick _ _ hgne ?_
    have hfn : (create_performance_groups (sortWorkers clients)
        models.length).flatten.Nodup := by
      rw [hflat]
      exact hndsorted
    exact (List.nodup_flatten.mp hfn).2
  have hcontains : ∀ a, (selKeys.contains a = true) ↔ a ∈ selKeys :=
    fun a => List.elem_iff
  constructor
  · ext a
    simp only [List.mem_toFinset, List.mem_append]
    constructor
    · rintro (ha | ha)
      · exact hidperm.mem_iff.mp (hsub a ha)
      · rw [hrem] at ha
        exact hidperm.mem_iff.mp (List.mem_filter.mp ha).1
    · intro ha
      have ha' : a ∈ (sortWorkers clients).map Prod.fst :=
        hidperm.mem_iff.mpr ha
      by_cases hsel : a ∈ selKeys
      · exact Or.inl hsel
      · refine Or.inr ?_
        rw [hrem]
        refine List.mem_filter.mpr ⟨ha', ?_⟩
        simp only [Bool.not_eq_true']
        cases hcase : selKeys.contains a
        · rfl
        · exact absurd ((hcontains a).mp hcase) hsel
  · rw [List.nodup_append]
    refine ⟨hnodupSel, ?_, ?_⟩
    · rw [hrem]
      exact hndsorted.filter _
    · intro a haSel haRem
      rw [hrem] at haRem
      have hbool := (List.mem_filter.mp haRem).2
      simp only [Bool.not_eq_true'] at hbool
      have htrue := (hcontains a).mpr haSel
      rw [hbool] at htrue
      cases htrue

/-- C5: the assignment engine partitions the score-descending-sorted
workers into `min G N` contiguous groups whose sizes are the ceiling of
`N / G` for the first `N mod G` groups and the floor afterwards, the
groups concatenate back to the sorted worker sequence, and any worker of
a lower-numbered group has performance score at least that of any worker
of a higher-numbered group. -/
theorem c5_partition (clients : Registry) (models : List ModelInfo)
    (hc : clients ≠ []) (hm : models ≠ [])
    (hnd : (clients.map Prod.fst).Nodup) :
    (create_performance_groups (sortWorkers clients) models.length).length =
      min models.length clients.length ∧
    (∀ (i : Nat) (hi : i < (create_performance_groups (sortWorkers clients)
          models.length).length),
        ((create_performance_groups (sortWorkers clients)
            models.length).get ⟨i, hi⟩).length =
          if i < clients.length % models.length then
            (clients.length + models.length - 1) / models.length
          else clients.length / models.length) ∧
    ((create_performance_groups (sortWorkers clients)
        models.length).flatten = (sortWorkers clients).map Prod.fst) ∧
    (∀ (i j : Nat)
        (hi : i < (create_performance_groups (sortWorkers clients)
          models.length).length)
        (hj : j < (create_performance_groups (sortWorkers clients)
          models.length).length), i < j →
        ∀ x ∈ (create_performance_groups (sortWorkers clients)
            models.length).get ⟨i, hi⟩,
        ∀ y ∈ (create_performance_groups (sortWorkers clients)
            models.length).get ⟨j, hj⟩,
        ∀ cx cy, clients.lookup x = some cx → clients.lookup y = some cy →
          cy.specs.performance_score ≤ cx.specs.performance_score) := by
  have hcperm : (sortWorkers clients).Perm clients := List.perm_insertionSort _ _
  have hslen : (sortWorkers clients).length = clients.length := hcperm.length_eq
  have hsne : sortWorkers clients ≠ [] := by
    intro h
    rw [h] at hcperm
    exact hc hcperm.symm.eq_nil
  have hsorted : (sortWorkers clients).Sorted byScoreDesc :=
    List.sorted_insertionSort _ _
  have hGpos : 0 < models.length := List.length_pos.mpr hm
  have hNpos : 0 < clients.length := List.length_pos.mpr hc
  have hlook : ∀ (x : String) (c : ClientInfo), (x, c) ∈ sortWorkers clients →
      clients.lookup x = some c := fun x c hxc =>
    lookup_of_mem_nodup hnd (hcperm.subset hxc)
  have hinv : (sortWorkers clients).length =
      clients.length / models.length * models.length +
        clients.length % models.length := by
    rw [hslen]
    have h := Nat.div_add_mod clients.length models.length
    rw [Nat.mul_comm] at h
    omega
  have hext : clients.length % models.length ≤ models.length :=
    le_of_lt (Nat.mod_lt _ hGpos)
  obtain ⟨hflat, hgne, hglen⟩ := create_groups_spec (sortWorkers clients)
    models.length hGpos.ne' hsne
  refine ⟨by rw [hglen, hslen], ?_, hflat, ?_⟩
  · -- group sizes
    intro i hi
    by_cases hle : clients.length ≤ models.length
    · have hbranch : create_performance_groups (sortWorkers clients)
          models.length = (sortWorkers clients).map (fun p => [p.1]) := by
        unfold create_performance_groups
        rw [if_neg (by push_neg; exact ⟨hGpos.ne', hsne⟩),
          if_pos (by rw [hslen]; exact hle)]
      have hi' : i < clients.length := by
        have hcopy := hi
        rw [hglen, hslen] at hcopy
        omega
      have hone : ((create_performance_groups (sortWorkers clients)
          models.length).get ⟨i, hi⟩).length = 1 := by
        rw [List.get_of_eq hbranch ⟨i, hi⟩, List.get_map]
        rfl
      rw [hone]
      rcases Nat.lt_or_ge clients.length models.length with hlt | hge
      · have hmod : clients.length % models.length = clients.length :=
          Nat.mod_eq_of_lt hlt
        rw [hmod, if_pos hi']
        exact (Nat.div_eq_of_lt_le (by omega) (by omega)).symm
      · have hNG : clients.length = models.length := le_antisymm hle hge
        rw [hNG, Nat.mod_self, if_neg (Nat.not_lt_zero i),
          Nat.div_self hGpos]
    · have hbranch : create_performance_groups (sortWorkers clients)
          models.length =
          groupsLoop (clients.length / models.length) models.length
            (clients.length % models.length) (sortWorkers clients) := by
        unfold create_performance_groups
        rw [if_neg (by push_neg; exact ⟨hGpos.ne', hsne⟩),
          if_neg (by rw [hslen]; exact hle), hslen]
      have hsize := groupsLoop_get_length models.length
        (clients.length % models.length) (sortWorkers clients) hext hinv
      rw [List.get_of_eq hbranch ⟨i, hi⟩]
      rw [hsize i _]
      by_cases hcase : i < clients.length % models.length
      · rw [if_pos hcase, if_pos hcase,
          ceil_div_of_mod_pos hGpos (by omega)]
      · rw [if_neg hcase, if_neg hcase]
  · -- cross-group score monotonicity
    intro i j hi hj hij x hx y hy cx cy hcx hcy
    by_cases hle : clients.length ≤ models.length
    · have hbranch : create_performance_groups (sortWorkers clients)
          models.length = (sortWorkers clients).map (fun p => [p.1]) := by
        unfold create_performance_groups
        rw [if_neg (by push_neg; exact ⟨hGpos.ne', hsne⟩),
          if_pos (by rw [hslen]; exact hle)]
      have hi2 : i < (sortWorkers clients).length := by
        have hcopy := hi
        rw [hglen, hslen] at hcopy
        rw [hslen]
        omega
      have hj2 : j < (sortWorkers clients).length := by
        have hcopy := hj
        rw [hglen, hslen] at hcopy
        rw [hslen]
        omega
      rw [List.get_of_eq hbranch ⟨i, hi⟩] at hx
      rw [List.get_of_eq hbranch ⟨j, hj⟩] at hy
      rw [List.get_map] at hx hy
      have hxeq : x = ((sortWorkers clients).get ⟨i, hi2⟩).1 :=
        List.mem_singleton.mp hx
      have hyeq : y = ((sortWorkers clients).get ⟨j, hj2⟩).1 :=
        List.mem_singleton.mp hy
      have hrel : byScoreDesc ((sortWorkers clients).get ⟨i, hi2⟩)
          ((sortWorkers clients).get ⟨j, hj2⟩) :=
        List.pairwise_iff_get.mp hsorted ⟨i, hi2⟩ ⟨j, hj2⟩
          (Fin.mk_lt_mk.mpr hij)
      have hcx' : clients.lookup x =
          some ((sortWorkers clients).get ⟨i, hi2⟩).2 := by
        rw [hxeq]
        refine hlook _ _ ?_
        rw [Prod.mk.eta]
        exact List.get_mem _ _ _
      have hcy' : clients.lookup y =
          some ((sortWorkers clients).get ⟨j, hj2⟩).2 := by
        rw [hyeq]
        refine hlook _ _ ?_
        rw [Prod.mk.eta]
        exact List.get_mem _ _ _
      rw [hcx] at hcx'
      rw [hcy] at hcy'
      rw [Option.some.inj hcx', Option.some.inj hcy']
      exact hrel
    · have hbranch : create_performance_groups (sortWorkers clients)
          models.length =
          groupsLoop (clients.length / models.length) models.length
            (clients.length % models.length) (sortWorkers clients) := by
        unfold create_performance_groups
        rw [if_neg (by push_neg; exact ⟨hGpos.ne', hsne⟩),
          if_neg (by rw [hslen]; exact hle), hslen]
      rw [List.get_of_eq hbranch ⟨i, hi⟩] at hx
      rw [List.get_of_eq hbranch ⟨j, hj⟩] at hy
      obtain ⟨cx', cy', hcxm, hcym, hrel⟩ := groupsLoop_pairwise
        models.length (clients.length % models.length) (sortWorkers clients)
        hsorted i j _ _ hij x hx y hy
      have hcx'' := hlook x cx' hcxm
      have hcy'' := hlook y cy' hcym
      rw [hcx] at hcx''
      rw [hcy] at hcy''
      rw [Option.some.inj hcx'', Option.some.inj hcy'']
      exact hrel

/-- Witness for C5 at three workers and two models: two groups, the
first of the ceiling size 2, and the group-1 worker "A" outscores the
group-2 worker "C". -/
theorem c5_partition_witness :
    (create_performance_groups (sortWorkers threeClientRegistry)
        twoModelCatalog.length).length =
      min twoModelCatalog.length threeClientRegistry.length ∧
    ((create_performance_groups (sortWorkers threeClientRegistry)
        twoModelCatalog.length).get ⟨0, by decide⟩).length = 2 ∧
    ("A" ∈ (create_performance_groups (sortWorkers threeClientRegistry)
        twoModelCatalog.length).get ⟨0, by decide⟩) ∧
    ("C" ∈ (create_performance_groups (sortWorkers threeClientRegistry)
        twoModelCatalog.length).get ⟨1, by decide⟩) ∧
    (clientWith 40).specs.performance_score ≤
      (clientWith 90).specs.performance_score := by
  have h := c5_partition threeClientRegistry twoModelCatalog (by decide)
    (by decide) (by decide)
  refine ⟨h.1, ?_, by decide, by decide, ?_⟩
  · have hs := h.2.1 0 (by decide)
    simpa using hs
  · exact h.2.2.2 0 1 (by decide) (by decide) (by decide) "A" (by decide)
      "C" (by decide) (clientWith 90) (clientWith 40) (by decide) (by decide)

/-- Witness for C4 at three workers and two models. -/
theorem c4_assignment_domain_witness :
    ((assign_models_to_clients pickLast twoModelCatalog
        threeClientRegistry).map Prod.fst).toFinset =
      (threeClientRegistry.map Prod.fst).toFinset ∧
    ((assign_models_to_clients pickLast twoModelCatalog
        threeClientRegistry).map Prod.fst).Nodup :=
  c4_assignment_domain pickLast twoModelCatalog threeClientRegistry
    pickLast_valid (by decide) (by decide) (by decide)

/-- C8: the complexity rank derived from a model's parameter count is the
fixed step function of spec section 4.2 (the definition
`complexity_of_parameters` transcribes it), and is therefore monotone
non-decreasing in the parameter count. -/
theorem c8_complexity_rank_monotone (p1 p2 : Nat) (h : p1 ≤ p2) :
    complexity_of_parameters p1 ≤ complexity_of_parameters p2 := by
  rw [complexity_eq_rankAux, complexity_eq_rankAux]
  exact rankAux_mono rankTable (by decide) (by decide) h

/-- Witness for C8 at the concrete parameter counts 500M and 2B. -/
theorem c8_complexity_rank_monotone_witness :
    500000000 ≤ 2000000000 ∧
      complexity_of_parameters 500000000 ≤ complexity_of_parameters 2000000000 :=
  ⟨by norm_num, c8_complexity_rank_monotone 500000000 2000000000 (by norm_num)⟩

/-- C10: every registration response produced by the non-exception path of
`RegisterClient` is successful and carries the constant `client_group = 1`,
for every registry state, catalog, request and random-selection outcome:
the worker's real group index is never reported. -/
theorem c10_register_client_group_constant
    (pick : List String → String) (models : List ModelInfo) (now : Rat)
    (clients : Registry) (request : RegisterRequest) :
    (RegisterClient pick models now clients request).2.client_group = 1 ∧
    (RegisterClient pick models now clients request).2.success = true :=
  ⟨rfl, rfl⟩

/-- C2: invoking the dispatch engine on an empty registry snapshot returns
the `NO_WORKERS` result synchronously and never the summarization
result. -/
theorem c2_dispatch_empty_registry (outcome : String → WorkerOutcome) :
    process_distributed_query outcome [] = DispatchResult.noWorkers ∧
    ∀ rs, process_distributed_query outcome [] ≠ DispatchResult.summary rs := by
  constructor
  · rfl
  · intro rs h
    simp [process_distributed_query] at h

/-- C3: a worker whose assigned model's catalog descriptor has
`supports_vision = false` receives an `AIRequest` whose images list is
empty, regardless of the images supplied by the caller. -/
theorem c3_vision_false_images_empty
    (models : List ModelInfo) (name : String) (mi : ModelInfo)
    (info : ClientInfo) (request_id prompt : String) (timestamp : Int)
    (images : List String)
    (hassigned : info.assigned_model = some name)
    (hfound : get_model_info models name = some mi)
    (hvision : mi.supports_vision = false) :
    (mkAIRequest models request_id prompt timestamp info images).images = [] := by
  simp [mkAIRequest, filteredImages, hassigned, hfound, hvision]

/-- Witness for C3: the worker assigned the non-vision 1B model gets no
images even though the caller supplied one. -/
theorem c3_vision_false_images_empty_witness :
    (mkAIRequest twoModelCatalog "req-1" "hello" 0 visionTestClient
      ["aW1hZ2U="]).images = [] :=
  c3_vision_false_images_empty twoModelCatalog "llama3.2:1b" smallModel
    visionTestClient "req-1" "hello" 0 ["aW1hZ2U="] (by decide) (by decide) (by decide)

/-- C6 is refuted: the sort of `assign_models_to_clients` breaks
score ties by registration (insertion) order, not by worker id: with two
equal-score workers registered as b-then-a the sorted order keeps "b"
first although "a" precedes it lexicographically, and registering the
same two workers as a-then-b yields the other order, so the sorted order
is not independent of registration order. -/
theorem c6_counterexample :
    sortWorkers [("b", clientWith 10), ("a", clientWith 10)] =
      [("b", clientWith 10), ("a", clientWith 10)] ∧
    sortWorkers [("a", clientWith 10), ("b", clientWith 10)] =
      [("a", clientWith 10), ("b", clientWith 10)] ∧
    ("a" : String) < "b" :=
  ⟨by decide, by decide, by rw [String.lt_iff_toList_lt]; decide⟩

/-- C6 amended: workers are sorted by performance score descending with a
stable sort: workers with equal performance scores keep their relative
registration (insertion) order, so the order is deterministic given the
registry but depends on registration order for ties. -/
theorem c6_amended_stable_sort (clients : Registry) :
    (sortWorkers clients).Sorted byScoreDesc ∧
    (sortWorkers clients).Perm clients ∧
    (∀ x y : String × ClientInfo, [x, y].Sublist clients →
      x.2.specs.performance_score = y.2.specs.performance_score →
      [x, y].Sublist (sortWorkers clients)) := by
  refine ⟨List.sorted_insertionSort _ _, List.perm_insertionSort _ _, ?_⟩
  intro x y hsub heq
  exact List.pair_sublist_insertionSort (le_of_eq heq.symm) hsub

/-- Witness for C6 amended: two equal-score workers stay in registration
order below a stronger worker. -/
theorem c6_amended_stable_sort_witness :
    [("b", clientWith 10), ("a", clientWith 10)].Sublist
      (sortWorkers
        [("x", clientWith 99), ("b", clientWith 10), ("a", clientWith 10)]) :=
  (c6_amended_stable_sort _).2.2 ("b", clientWith 10) ("a", clientWith 10)
    (List.Sublist.cons _ (List.Sublist.refl _)) rfl

/-- C7 is refuted as stated: the evaluator only clips the score from
above, so an adversarial specs record with a negative core count yields a
negative score, outside the claimed interval. -/
theorem c7_counterexample :
    calculate_performance_score negativeSpecs = -145 ∧
    calculate_performance_score negativeSpecs < 0 := by
  have hgpu : gpuScore "" = 5 := by decide
  have hmain : calculate_performance_score negativeSpecs = -145 := by
    unfold calculate_performance_score
    dsimp only [negativeSpecs]
    norm_num [hgpu, min_def]
    rw [show ((-145 : Rat)) = (((-145 : Int)) : Rat) by norm_num]
    rw [pyRound1_intCast]
  exact ⟨hmain, by rw [hmain]; norm_num⟩

/-- C7 amended: for every specs record whose core count, frequency and
RAM size are nonnegative (as every detector produces), the performance
score lies in the closed interval from 0 to 100; the upper clip holds for
all inputs, only the lower bound needs the nonnegativity. -/
theorem c7_amended_score_bounds (specs : HardwareSpecs)
    (hc : 0 ≤ specs.cpu_cores) (hf : 0 ≤ specs.cpu_frequency_ghz)
    (hr : 0 ≤ specs.ram_gb) :
    0 ≤ calculate_performance_score specs ∧
      calculate_performance_score specs ≤ 100 := by
  have hg := gpuScore_bounds specs.gpu_info
  have hcores : (0 : Rat) ≤ (specs.cpu_cores : Rat) := by exact_mod_cast hc
  unfold calculate_performance_score
  dsimp only
  constructor
  · apply pyRound1_nonneg
    have b1 : (0 : Rat) ≤ min 20 ((specs.cpu_cores : Rat) * 1.5) :=
      le_min (by norm_num) (mul_nonneg hcores (by norm_num))
    have b2 : (0 : Rat) ≤ min 20 (specs.cpu_frequency_ghz * 6) :=
      le_min (by norm_num) (mul_nonneg hf (by norm_num))
    have b3 : (0 : Rat) ≤ min 30 (specs.ram_gb * 1.5) :=
      le_min (by norm_num) (mul_nonneg hr (by norm_num))
    exact le_min (by norm_num) (by linarith [hg.1])
  · apply pyRound1_le_100
    exact min_le_left _ _

/-- Witness for C7 amended at the neutral fixture specs. -/
theorem c7_amended_score_bounds_witness :
    (0 : Int) ≤ (clientWith 90).specs.cpu_cores ∧
    (0 : Rat) ≤ (clientWith 90).specs.cpu_frequency_ghz ∧
    (0 : Rat) ≤ (clientWith 90).specs.ram_gb ∧
    (0 ≤ calculate_performance_score (clientWith 90).specs ∧
      calculate_performance_score (clientWith 90).specs ≤ 100) :=
  ⟨by decide, by decide, by decide,
    c7_amended_score_bounds ((clientWith 90).specs) (by decide) (by decide)
      (by decide)⟩

end LoadBalancer
